import Mathlib

/-!
Shallow embedding of `src/simulators/clifford_plus_phase/compute.hpp`
(the Clifford-plus-phase "compute" simulator of qiskit-aer).

The excerpt consists of the gate dispatch layer (`apply_gate`, `gateset_`,
`StateOpSet`) and the probability oracle (`compute_probability`,
`compute_algorithm_all_phases_T`, `BinaryToGray`).  The tableau data structure
`AGState` (ag_state.hpp) and the Pauli algebra (pauli.hpp) are external to the
excerpt; following the spec they are modelled as a record of fields (section 3
of the spec) plus a bundle of operation parameters with the contracted
signatures (section 6 of the spec).

Floating point doubles are embedded as exact values: every number produced by
the summation kernel lies in the ring Q[sqrt 2], represented by the `Q2`
structure below.
-/

/-- Exact value in the ring Q[sqrt 2]: the pair (a, b) denotes a + b * sqrt 2.
The C++ code stores probabilities in long doubles; every quantity computed by
the summation kernel is an integer combination of powers of 2 ^ (1/2), so the
arithmetic is embedded exactly in this ring. -/
structure Q2 where
  a : ℚ
  b : ℚ
deriving DecidableEq

def Q2.add (u v : Q2) : Q2 := ⟨u.a + v.a, u.b + v.b⟩

def Q2.sub (u v : Q2) : Q2 := ⟨u.a - v.a, u.b - v.b⟩

def Q2.mul (u v : Q2) : Q2 := ⟨u.a * v.a + 2 * u.b * v.b, u.a * v.b + u.b * v.a⟩

instance : Zero Q2 := ⟨⟨0, 0⟩⟩

instance : One Q2 := ⟨⟨1, 0⟩⟩

instance : Add Q2 := ⟨Q2.add⟩

instance : Sub Q2 := ⟨Q2.sub⟩

instance : Mul Q2 := ⟨Q2.mul⟩

/-- A Pauli operator in symplectic representation: per-qubit X and Z bit
vectors.  Modelled from the spec: pauli.hpp is not part of the excerpt; the
spec (section 3) describes a Pauli row as a pair of bit-vectors of length
num_qubits, with the sign tracked separately. -/
structure Pauli where
  X : List Bool
  Z : List Bool
deriving DecidableEq

/-- The identity Pauli row on n qubits (`Pauli::Pauli row(n)` in the source). -/
def Pauli.identity (n : ℕ) : Pauli :=
  ⟨List.replicate n false, List.replicate n false⟩

/-- Row addition `row += other`: symmetric difference of the bit vectors
(Pauli multiplication in the symplectic representation, phase tracked
separately through phase_exponent).  Modelled from the spec (section 3). -/
def Pauli.add (p q : Pauli) : Pauli :=
  ⟨List.zipWith Bool.xor p.X q.X, List.zipWith Bool.xor p.Z q.Z⟩

instance : Add Pauli := ⟨Pauli.add⟩

/-- Modelled from the spec: ag_state.hpp is not part of the excerpt.  The spec
(section 3) describes the extended stabilizer tableau as an active qubit count,
a stabilizer count, a table of Pauli rows each with an implicit sign phase, and
a list of magic phase angles.  Angles are represented as rationals since the
excerpt only compares them for closeness to a fixed constant. -/
structure AGState where
  num_qubits : ℕ
  num_stabilizers : ℕ
  table : List Pauli
  phases : List ℕ
  magic_phases : List ℚ
deriving DecidableEq

/-- Modelled from the spec: the tableau operations implemented in ag_state.hpp
and the Pauli phase_exponent from pauli.hpp are external collaborators of the
excerpt (spec section 6).  They are taken as parameters with the contracted
signatures, together with the constants T_ANGLE and AG_CHOP_THRESHOLD whose
values the spec leaves unspecified (spec section 9). -/
structure ExternalOps where
  applyX : ℕ → AGState → AGState
  applyY : ℕ → AGState → AGState
  applyZ : ℕ → AGState → AGState
  applyS : ℕ → AGState → AGState
  applyH : ℕ → AGState → AGState
  applyCX : ℕ → ℕ → AGState → AGState
  applyCZ : ℕ → ℕ → AGState → AGState
  applySwap : ℕ → ℕ → AGState → AGState
  gadgetized_phase_gate : ℕ → ℚ → AGState → AGState
  apply_constraints : ℕ → ℕ → AGState → AGState × Bool × ℕ
  apply_T_constraints : AGState → AGState
  delete_identity_magic_qubits : AGState → AGState
  phase_exponent : Pauli → Pauli → ℕ
  T_ANGLE : ℚ
  AG_CHOP_THRESHOLD : ℚ

/-- `BinaryToGray` (source lines 196-199): `num ^ (num >> 1)`. -/
def BinaryToGray (num : ℕ) : ℕ := num ^^^ (num >>> 1)

/-- The `full_mask` accumulation loop at the top of
`compute_algorithm_all_phases_T` (source lines 203-206). -/
def fullMask (num_stabilizers : ℕ) : ℕ :=
  (List.range num_stabilizers).foldl (fun m i => m ||| (1 <<< i)) 0

/-- The inner scan of source lines 213-219: find the first j in
[start, start + fuel) with bit j of m set, keeping the initial value 0 of
`bit_to_flip` when no bit is found. -/
def lsbScan (m : ℕ) : ℕ → ℕ → ℕ
  | _, 0 => 0
  | j, fuel + 1 => if m.testBit j then j else lsbScan m (j + 1) fuel

/-- `bit_to_flip` for a given mask difference (source lines 213-219). -/
def lowestSetBit (num_stabilizers m : ℕ) : ℕ := lsbScan m 0 num_stabilizers

/-- The classification loop of source lines 227-241: for each qubit j in order,
an X-only position increments XCount, a Z-only position increments ZCount and
breaks out of the loop, a Y position (both bits) increments YCount. -/
def countXYZ (row : Pauli) : List ℕ → ℕ → ℕ → ℕ × ℕ × ℕ
  | [], xc, yc => (xc, yc, 0)
  | j :: js, xc, yc =>
    let xb := row.X.getD j false
    let zb := row.Z.getD j false
    if xb && !zb then countXYZ row js (xc + 1) yc
    else if !xb && zb then (xc, yc, 1)
    else if xb && zb then countXYZ row js xc (yc + 1)
    else countXYZ row js xc yc

/-- Exact value of `powl(1./2., (XCount + YCount)/2.)` (source line 245; the
exponent uses real division by `2.`), i.e. 2 ^ (-k/2), in Q[sqrt 2]. -/
def halfPow (k : ℕ) : Q2 :=
  if k % 2 = 0 then ⟨(1 / 2 : ℚ) ^ (k / 2), 0⟩ else ⟨0, (1 / 2 : ℚ) ^ ((k + 1) / 2)⟩

/-- The generator row added at iteration `mask`:
`state.table[bit_to_flip]` (source lines 220-221). -/
def grayTargetRow (state : AGState) (mask : ℕ) : Pauli :=
  state.table.getD
    (lowestSetBit state.num_stabilizers (BinaryToGray mask ^^^ BinaryToGray (mask - 1)))
    (Pauli.identity state.num_qubits)

/-- `row += state.table[bit_to_flip]` (source line 221). -/
def grayRowUpdate (state : AGState) (row : Pauli) (mask : ℕ) : Pauli :=
  row + grayTargetRow state mask

/-- `phase += Pauli::phase_exponent(row, state.table[bit_to_flip])` with the
old row, in an unsigned char accumulator (source line 220). -/
def grayPhaseUpdate (pe : Pauli → Pauli → ℕ) (state : AGState) (row : Pauli)
    (phase mask : ℕ) : ℕ :=
  (phase + pe row (grayTargetRow state mask)) % 256

/-- The accumulator update of one iteration of the Gray-code loop
(source lines 223-249). -/
def allT_acc (pe : Pauli → Pauli → ℕ) (state : AGState) (acc : Q2) (row : Pauli)
    (phase mask : ℕ) : Q2 :=
  if (countXYZ (grayRowUpdate state row mask) (List.range state.num_qubits) 0 0).2.2 = 0 then
    if (grayPhaseUpdate pe state row phase mask +
        (countXYZ (grayRowUpdate state row mask) (List.range state.num_qubits) 0 0).2.1) % 2 = 0
    then acc + halfPow
        ((countXYZ (grayRowUpdate state row mask) (List.range state.num_qubits) 0 0).1 +
         (countXYZ (grayRowUpdate state row mask) (List.range state.num_qubits) 0 0).2.1)
    else acc - halfPow
        ((countXYZ (grayRowUpdate state row mask) (List.range state.num_qubits) 0 0).1 +
         (countXYZ (grayRowUpdate state row mask) (List.range state.num_qubits) 0 0).2.1)
  else acc

/-- One full iteration of the Gray-code loop (source lines 211-250), returning
the new accumulator, running row, and phase. -/
def allT_step (pe : Pauli → Pauli → ℕ) (state : AGState) (acc : Q2) (row : Pauli)
    (phase mask : ℕ) : Q2 × Pauli × ℕ :=
  (allT_acc pe state acc row phase mask, grayRowUpdate state row mask,
   grayPhaseUpdate pe state row phase mask)

/-- The Gray-code loop run for masks 1 .. m starting from acc = 1, the identity
row, and phase 0 (source lines 207-250). -/
def allT_loop (pe : Pauli → Pauli → ℕ) (state : AGState) (m : ℕ) : Q2 × Pauli × ℕ :=
  (List.range' 1 m).foldl
    (fun st mask => allT_step pe state st.1 st.2.1 st.2.2 mask)
    (1, Pauli.identity state.num_qubits, 0)

/-- `compute_algorithm_all_phases_T` (source lines 202-256). -/
def compute_algorithm_all_phases_T (pe : Pauli → Pauli → ℕ) (state : AGState) : Q2 :=
  if fullMask state.num_stabilizers = 0 then 1
  else (allT_loop pe state (fullMask state.num_stabilizers)).1

/-- Ascending insertion into a sorted list, used to model `std::sort` on the
measured qubit list (source line 262). -/
def insertAsc (x : ℕ) : List ℕ → List ℕ
  | [] => [x]
  | y :: ys => if x ≤ y then x :: y :: ys else y :: insertAsc x ys

/-- Ascending sort of the measured qubit list (`measured_qubits_sorted`). -/
def sortAsc (l : List ℕ) : List ℕ := l.foldr insertAsc []

/-- One iteration of the qubit reordering loop (source lines 265-278): take the
i-th smallest measured qubit w, find the first position idx of w in the
caller-order list, and, when `measured_qubits[i] != i`, swap tableau qubits w
and idx. -/
def reorderStep (E : ExternalOps) (measured_qubits : List ℕ) (s : AGState) (i : ℕ) : AGState :=
  if measured_qubits.getD i 0 ≠ i then
    E.applySwap ((sortAsc measured_qubits).getD i 0)
      (((List.range measured_qubits.length).find?
          (fun j => measured_qubits.getD j 0 == (sortAsc measured_qubits).getD i 0)).getD 0)
      s
  else s

/-- The tableau copy after the full reordering loop (source lines 258-278). -/
def reorderedState (E : ExternalOps) (qreg : AGState) (measured_qubits : List ℕ) : AGState :=
  (List.range measured_qubits.length).foldl (reorderStep E measured_qubits) qreg

/-- The tableau copy after the outcome-normalization loop (source lines
282-286): apply X to position i whenever `outcomes[i] == 1`. -/
def outcomeNormalizedState (E : ExternalOps) (qreg : AGState)
    (measured_qubits outcomes : List ℕ) : AGState :=
  (List.range outcomes.length).foldl
    (fun s i => if outcomes.getD i 0 = 1 then E.applyX i s else s)
    (reorderedState E qreg measured_qubits)

/-- `copied_ag.apply_constraints(w, t)` together with the state it leaves
behind (source lines 288-292): w is the measured qubit count, t the current
magic phase count. -/
def constraintsResult (E : ExternalOps) (qreg : AGState)
    (measured_qubits outcomes : List ℕ) : AGState × Bool × ℕ :=
  E.apply_constraints measured_qubits.length
    (outcomeNormalizedState E qreg measured_qubits outcomes).magic_phases.length
    (outcomeNormalizedState E qreg measured_qubits outcomes)

/-- `std::vector::resize(t)` on a bit vector: truncate or pad with false. -/
def listResize (l : List Bool) (t : ℕ) : List Bool :=
  l.take t ++ List.replicate (t - l.length) false

/-- The magic-qubit isolation step (source lines 297-307): swap each q with
q + t, resize the first num_stabilizers rows to length t, and set the active
qubit count to t. -/
def truncatedState (E : ExternalOps) (qreg : AGState)
    (measured_qubits outcomes : List ℕ) : AGState :=
  let t := (outcomeNormalizedState E qreg measured_qubits outcomes).magic_phases.length
  let s1 := (constraintsResult E qreg measured_qubits outcomes).1
  let s2 := (List.range t).foldl (fun s q => E.applySwap q (q + t) s) s1
  let s3 := { s2 with
    table := s2.table.mapIdx (fun i (p : Pauli) =>
      if i < s2.num_stabilizers then (⟨listResize p.X t, listResize p.Z t⟩ : Pauli) else p) }
  { s3 with num_qubits := t }

/-- The tableau copy after `apply_T_constraints` and
`delete_identity_magic_qubits` (source lines 309-310). -/
def cleanedState (E : ExternalOps) (qreg : AGState)
    (measured_qubits outcomes : List ℕ) : AGState :=
  E.delete_identity_magic_qubits
    (E.apply_T_constraints (truncatedState E qreg measured_qubits outcomes))

/-- The `all_phases_are_T` flag computation (source lines 314-320): true iff no
remaining magic phase differs from T_ANGLE by more than AG_CHOP_THRESHOLD. -/
def allPhasesAreT (E : ExternalOps) (s : AGState) : Bool :=
  (List.range s.num_qubits).all
    (fun i => !(decide (|s.magic_phases.getD i 0 - E.T_ANGLE| > E.AG_CHOP_THRESHOLD)))

/-- The size_t subtraction `v - w` appearing in `powl(2., v - w)` at source
line 325: unsigned 64-bit wrap-around arithmetic. -/
def usub (v w : ℕ) : ℕ := (v % 2 ^ 64 + 2 ^ 64 - w % 2 ^ 64) % 2 ^ 64

/-- `State::compute_probability` (source lines 258-327).  The copy at line 259
is implicit: the pipeline functions above thread the copied value and never
touch the caller tableau.  Line 322 computes `powl(2., (double)v - (double)w)`
(signed difference); line 325 computes `powl(2., v - w)` with size_t operands
(unsigned wrap-around), which the embedding reproduces via `usub`. -/
def compute_probability (E : ExternalOps) (qreg : AGState)
    (measured_qubits outcomes : List ℕ) : Q2 :=
  if (constraintsResult E qreg measured_qubits outcomes).2.1 = false then 0
  else if (cleanedState E qreg measured_qubits outcomes).num_qubits = 0 then
    ⟨(2 : ℚ) ^ (((constraintsResult E qreg measured_qubits outcomes).2.2 : ℤ) -
                (measured_qubits.length : ℤ)), 0⟩
  else
    Q2.mul
      (compute_algorithm_all_phases_T E.phase_exponent
        (cleanedState E qreg measured_qubits outcomes))
      ⟨(2 : ℚ) ^ usub (constraintsResult E qreg measured_qubits outcomes).2.2
          measured_qubits.length, 0⟩

/-- The three return sites of `State::compute_probability`: line 294 (solver
reported failure), line 322 (no magic qubits remain), line 325 (the all-T
summation kernel). -/
inductive PRoute
  | constraintFail
  | identityPath
  | allTPath
deriving DecidableEq

/-- Which of the three return sites of `State::compute_probability` produces
the result; the branch structure is identical to `compute_probability`. -/
def compute_probability_route (E : ExternalOps) (qreg : AGState)
    (measured_qubits outcomes : List ℕ) : PRoute :=
  if (constraintsResult E qreg measured_qubits outcomes).2.1 = false then
    PRoute.constraintFail
  else if (cleanedState E qreg measured_qubits outcomes).num_qubits = 0 then
    PRoute.identityPath
  else PRoute.allTPath

/-- The `Gates` enumeration (source lines 34-36). -/
inductive Gates
  | id | x | y | z | h | s | sdg | sx | t | tdg | cx | cz | swap
deriving DecidableEq

/-- The gate dispatch table `State::gateset_` (source lines 82-101), in source
order. -/
def gateset_ : List (String × Gates) :=
  [("delay", Gates.id), ("id", Gates.id), ("x", Gates.x), ("y", Gates.y),
   ("z", Gates.z), ("s", Gates.s), ("sdg", Gates.sdg), ("h", Gates.h),
   ("t", Gates.t), ("tdg", Gates.tdg), ("CX", Gates.cx), ("cx", Gates.cx),
   ("CZ", Gates.cz), ("cz", Gates.cz), ("swap", Gates.swap)]

/-- The gate names advertised in `StateOpSet` (source lines 22-30). -/
def StateOpSet_gates : List String :=
  ["CX", "cx", "cz", "swap", "id", "x", "y", "z", "h", "s", "sdg", "t"]

/-- An operation record: a gate name applied to qubit indices (spec section 3). -/
structure Op where
  name : String
  qubits : List ℕ

/-- The error thrown by `State::apply_gate` for an unknown gate name (source
lines 126-130), carrying the offending name. -/
inductive GateError
  | invalidGate (name : String)
deriving DecidableEq

/-- The switch body of `State::apply_gate` (source lines 131-170). -/
def applyGateKind (E : ExternalOps) (g : Gates) (op : Op) (s : AGState) : AGState :=
  match g with
  | Gates.id => s
  | Gates.x => E.applyX (op.qubits.getD 0 0) s
  | Gates.y => E.applyY (op.qubits.getD 0 0) s
  | Gates.z => E.applyZ (op.qubits.getD 0 0) s
  | Gates.s => E.applyS (op.qubits.getD 0 0) s
  | Gates.sdg => E.applyS (op.qubits.getD 0 0) (E.applyZ (op.qubits.getD 0 0) s)
  | Gates.h => E.applyH (op.qubits.getD 0 0) s
  | Gates.t => E.gadgetized_phase_gate (op.qubits.getD 0 0) E.T_ANGLE s
  | Gates.tdg => E.gadgetized_phase_gate (op.qubits.getD 0 0) (-E.T_ANGLE) s
  | Gates.cx => E.applyCX (op.qubits.getD 0 0) (op.qubits.getD 1 0) s
  | Gates.cz => E.applyCZ (op.qubits.getD 0 0) (op.qubits.getD 1 0) s
  | Gates.swap => E.applySwap (op.qubits.getD 0 0) (op.qubits.getD 1 0) s
  | Gates.sx => s

/-- `State::apply_gate` (source lines 123-171): look the name up in gateset_;
if absent, fail with an invalid-gate error carrying the name, leaving the
tableau untouched; otherwise dispatch on the gate kind. -/
def apply_gate (E : ExternalOps) (op : Op) (s : AGState) : Option GateError × AGState :=
  match gateset_.lookup op.name with
  | none => (some (GateError.invalidGate op.name), s)
  | some g => (none, applyGateKind E g op s)

/-- The simulator state: the tableau register qreg_ plus num_code_qubits
(source lines 42-75). -/
structure SimState where
  qreg : AGState
  num_code_qubits : ℕ

/-- `State::compute_probability` as a method on the simulator state: the body
copies `this->qreg_` into `copied_ag` (source line 259) and every following
statement reads or writes only the copy and locals, so the method leaves the
receiver unchanged; the embedding threads the receiver through explicitly so
that this frame property is a statement, not a convention. -/
def compute_probability_method (E : ExternalOps) (st : SimState)
    (measured_qubits outcomes : List ℕ) : Q2 × SimState :=
  (compute_probability E st.qreg measured_qubits outcomes, st)

/-- Swap entries a and b of a bit vector (one qubit column swap). -/
def swapIdx (a b : ℕ) (l : List Bool) : List Bool :=
  l.mapIdx (fun i x => if i = a then l.getD b false else if i = b then l.getD a false else x)

/-- Modelled from the spec: a concrete instantiation of the external tableau
operations (ag_state.hpp is not in the excerpt), used to evaluate the pipeline
at concrete inputs.  applySwap swaps the two qubit columns of every row;
applyX conjugates by Pauli X, advancing the sign exponent by 2 (mod 4) of
every row with a Z component on the target qubit; the constraint solver is
supplied per use since the spec fixes only its signature; the remaining
operations are not exercised by the probability pipeline and are left as the
identity. -/
def mkOps (con : ℕ → ℕ → AGState → AGState × Bool × ℕ) (tAngle chop : ℚ) : ExternalOps :=
  { applyX := fun q s =>
      { s with phases := s.phases.mapIdx (fun i ph =>
          if (s.table.getD i (Pauli.identity s.num_qubits)).Z.getD q false
          then (ph + 2) % 4 else ph) },
    applyY := fun _ s => s,
    applyZ := fun _ s => s,
    applyS := fun _ s => s,
    applyH := fun _ s => s,
    applyCX := fun _ _ s => s,
    applyCZ := fun _ _ s => s,
    applySwap := fun a b s =>
      { s with table := s.table.map (fun p => ⟨swapIdx a b p.X, swapIdx a b p.Z⟩) },
    gadgetized_phase_gate := fun _ _ s => s,
    apply_constraints := con,
    apply_T_constraints := fun s => s,
    delete_identity_magic_qubits := fun s => s,
    phase_exponent := fun _ _ => 0,
    T_ANGLE := tAngle,
    AG_CHOP_THRESHOLD := chop }

/-- Modelled from the spec: the constraint solver contract evaluated on a
tableau that encodes a classical basis state (row i is plus or minus Z on
qubit i).  The requested all-zero outcome on the leading w qubits is feasible
iff every row with a Z component on a constrained qubit has sign exponent 0,
and the rank value returned on success is w (the outcome is deterministic). -/
def basisCon (w : ℕ) (_t : ℕ) (s : AGState) : AGState × Bool × ℕ :=
  (s,
   (List.range w).all (fun q =>
     s.phases.getD
       (((List.range s.num_stabilizers).find?
           (fun i => (s.table.getD i (Pauli.identity s.num_qubits)).Z.getD q false)).getD 0)
       0 == 0),
   w)

/-- Modelled from the spec: a solver that always reports success with rank
value 0; the spec constrains only the signature of apply_constraints. -/
def constTrueCon (_w : ℕ) (_t : ℕ) (s : AGState) : AGState × Bool × ℕ := (s, true, 0)

/-- Modelled from the spec: a solver that reports an unsatisfiable constraint. -/
def constFalseCon (_w : ℕ) (_t : ℕ) (s : AGState) : AGState × Bool × ℕ := (s, false, 0)

/-- The Pauli row plus or minus Z on qubit i of n. -/
def zRow (n i : ℕ) : Pauli :=
  ⟨List.replicate n false, (List.range n).map (fun j => decide (j = i))⟩

/-- A two qubit classical tableau: qubit 0 in state 0, qubit 1 in state 1
(row signs 0 and 2), no magic qubits. -/
def basisState01 : AGState := ⟨2, 2, [zRow 2 0, zRow 2 1], [0, 2], []⟩

/-- External operations for the classical basis state model. -/
def basisOps : ExternalOps := mkOps basisCon 0 0

/-- A tableau with one magic qubit (phase angle 2), no stabilizer rows. -/
def oneMagicState : AGState := ⟨2, 0, [], [], [2]⟩

/-- External operations with an always-satisfiable rank 0 solver and T angle 1
with chop threshold 1/100. -/
def tOps : ExternalOps := mkOps constTrueCon 1 (1 / 100)

/-- A trivial one qubit tableau with no magic qubits. -/
def trivTableau : AGState := ⟨1, 0, [], [], []⟩

/-- Qubit position j of a row is X-only: X bit set, Z bit clear. -/
def xOnlyAt (row : Pauli) (j : ℕ) : Bool :=
  row.X.getD j false && !(row.Z.getD j false)

/-- Qubit position j of a row is Z-only: Z bit set, X bit clear. -/
def zOnlyAt (row : Pauli) (j : ℕ) : Bool :=
  !(row.X.getD j false) && row.Z.getD j false

/-- Qubit position j of a row is Y: both bits set. -/
def yBothAt (row : Pauli) (j : ℕ) : Bool :=
  row.X.getD j false && row.Z.getD j false

/-- Some position below n of the row is Z-only. -/
def hasZOnly (row : Pauli) (n : ℕ) : Bool :=
  (List.range n).any (zOnlyAt row)

/-- The number of X-only positions below n of the row. -/
def xCountFull (row : Pauli) (n : ℕ) : ℕ :=
  (List.range n).countP (xOnlyAt row)

/-- The number of Y positions below n of the row. -/
def yCountFull (row : Pauli) (n : ℕ) : ℕ :=
  (List.range n).countP (yBothAt row)

/-- Well-formedness of a tableau per the spec invariant (section 3): every
row's bit vectors have length num_qubits. -/
def WFTable (state : AGState) : Prop :=
  ∀ p ∈ state.table, p.X.length = state.num_qubits ∧ p.Z.length = state.num_qubits

/-- Fold the generator rows selected by the set bits of m (restricted to the
given index list) onto an initial row. -/
def selAux (state : AGState) (m : ℕ) (js : List ℕ) (r : Pauli) : Pauli :=
  js.foldl
    (fun acc j =>
      if m.testBit j then acc + state.table.getD j (Pauli.identity state.num_qubits) else acc)
    r

/-- The product (symmetric difference) of the generator rows selected by the
set bits of m, over all stabilizer indices. -/
def selectRows (state : AGState) (m : ℕ) : Pauli :=
  selAux state m (List.range state.num_stabilizers) (Pauli.identity state.num_qubits)

/-- A trivial phase exponent function for concrete evaluation. -/
def peZero : Pauli → Pauli → ℕ := fun _ _ => 0

/-- A small well-formed tableau: one qubit, two stabilizer rows X and Y. -/
def wfState : AGState := ⟨1, 2, [⟨[true], [false]⟩, ⟨[true], [true]⟩], [0, 0], []⟩

/-- C6: for every choice of external operations, tableau and query, if the
constraint solver returns a false success flag, compute_probability returns
exactly 0 immediately (the line 294 return site), regardless of the remaining
magic qubit count and without running the summation. -/
theorem c6_constraint_failure_returns_zero (E : ExternalOps) (qreg : AGState)
    (measured_qubits outcomes : List ℕ)
    (h : (constraintsResult E qreg measured_qubits outcomes).2.1 = false) :
    compute_probability E qreg measured_qubits outcomes = 0 ∧
    compute_probability_route E qreg measured_qubits outcomes = PRoute.constraintFail := by
  unfold compute_probability compute_probability_route
  rw [h]
  simp

/-- Witness for C6: a concrete tableau and a solver reporting failure give
probability 0 through the constraint-failure return site. -/
theorem c6_constraint_failure_returns_zero_witness :
    compute_probability (mkOps constFalseCon 0 0) trivTableau [0] [0] = 0 ∧
    compute_probability_route (mkOps constFalseCon 0 0) trivTableau [0] [0] =
      PRoute.constraintFail :=
  c6_constraint_failure_returns_zero (mkOps constFalseCon 0 0) trivTableau [0] [0] (by decide)

/-- C7: for every choice of external operations, tableau and query, if the
constraint solver succeeds with value v and after T-constraint reduction and
identity-magic-qubit deletion the copied tableau has zero qubits left,
compute_probability returns exactly 2 ^ (v - w) with signed integer exponent
(line 322) and no summation is run. -/
theorem c7_zero_magic_identity_path (E : ExternalOps) (qreg : AGState)
    (measured_qubits outcomes : List ℕ)
    (hs : (constraintsResult E qreg measured_qubits outcomes).2.1 = true)
    (h0 : (cleanedState E qreg measured_qubits outcomes).num_qubits = 0) :
    compute_probability E qreg measured_qubits outcomes =
      ⟨(2 : ℚ) ^ (((constraintsResult E qreg measured_qubits outcomes).2.2 : ℤ) -
                  (measured_qubits.length : ℤ)), 0⟩ ∧
    compute_probability_route E qreg measured_qubits outcomes = PRoute.identityPath := by
  unfold compute_probability compute_probability_route
  rw [hs, h0]
  simp

/-- Witness for C7: a trivial tableau with no magic qubits and an
always-satisfiable rank 0 solver: measuring one qubit returns
2 ^ (0 - 1) = 1/2 through the identity return site. -/
theorem c7_zero_magic_identity_path_witness :
    compute_probability tOps trivTableau [0] [0] =
      ⟨(2 : ℚ) ^ (((constraintsResult tOps trivTableau [0] [0]).2.2 : ℤ) -
                  (([0] : List ℕ).length : ℤ)), 0⟩ ∧
    compute_probability_route tOps trivTableau [0] [0] = PRoute.identityPath :=
  c7_zero_magic_identity_path tOps trivTableau [0] [0] (by decide) (by decide)

/-- C8: compute_probability never mutates the caller tableau: the method-level
embedding returns the receiver unchanged, so the table rows, qubit count,
stabilizer count and magic phases of the original tableau after the call equal
their values before the call. -/
theorem c8_no_mutation (E : ExternalOps) (st : SimState)
    (measured_qubits outcomes : List ℕ) :
    (compute_probability_method E st measured_qubits outcomes).2.qreg.table =
      st.qreg.table ∧
    (compute_probability_method E st measured_qubits outcomes).2.qreg.num_qubits =
      st.qreg.num_qubits ∧
    (compute_probability_method E st measured_qubits outcomes).2.qreg.num_stabilizers =
      st.qreg.num_stabilizers ∧
    (compute_probability_method E st measured_qubits outcomes).2.qreg.magic_phases =
      st.qreg.magic_phases :=
  ⟨rfl, rfl, rfl, rfl⟩

/-- C9: for every operation whose name is not in gateset_, apply_gate fails
with an invalid-operation error carrying the offending name and leaves the
tableau unchanged: the lookup happens before any tableau mutation. -/
theorem c9_invalid_gate_error (E : ExternalOps) (op : Op) (s : AGState)
    (h : gateset_.lookup op.name = none) :
    apply_gate E op s = (some (GateError.invalidGate op.name), s) := by
  unfold apply_gate
  rw [h]

/-- Witness for C9: the unsupported name ccx fails with the error carrying
ccx, and the tableau is returned unchanged. -/
theorem c9_invalid_gate_error_witness :
    apply_gate basisOps ⟨"ccx", [0, 1, 2]⟩ basisState01 =
      (some (GateError.invalidGate "ccx"), basisState01) :=
  c9_invalid_gate_error basisOps ⟨"ccx", [0, 1, 2]⟩ basisState01 (by decide)

/-- C10 counterexample: the claim that every gateset_ name is listed in
StateOpSet is false: tdg, delay and CZ are accepted by the dispatch table but
absent from the advertised gate set. -/
theorem c10_gateset_counterexample :
    ("tdg" ∈ gateset_.map Prod.fst ∧ "tdg" ∉ StateOpSet_gates) ∧
    ("delay" ∈ gateset_.map Prod.fst ∧ "delay" ∉ StateOpSet_gates) ∧
    ("CZ" ∈ gateset_.map Prod.fst ∧ "CZ" ∉ StateOpSet_gates) := by
  decide

/-- C10 amended: every gate name accepted by gateset_ other than delay, tdg
and CZ is listed in the advertised StateOpSet gate list. -/
theorem c10_gateset_amended :
    ∀ name ∈ gateset_.map Prod.fst,
      name ∉ (["delay", "tdg", "CZ"] : List String) → name ∈ StateOpSet_gates := by
  decide

/-- Witness for the amended C10 at the concrete name x. -/
theorem c10_gateset_amended_witness : "x" ∈ StateOpSet_gates :=
  c10_gateset_amended "x" (by decide) (by decide)

/-- C1: the code computes the all_phases_are_T flag (lines 314-320) but never
branches on it: at a concrete state whose one remaining magic phase differs
from T_ANGLE by more than AG_CHOP_THRESHOLD (so the flag is false), the result
is still produced by the closed-form all-T summation return site (line 325),
not by a different general path. -/
theorem c1_fast_path_flag_unused :
    compute_probability_route tOps oneMagicState [0] [0] = PRoute.allTPath ∧
    allPhasesAreT tOps (cleanedState tOps oneMagicState [0] [0]) = false ∧
    (cleanedState tOps oneMagicState [0] [0]).num_qubits = 1 := by
  have hc : cleanedState tOps oneMagicState [0] [0] = (⟨1, 0, [], [], [2]⟩ : AGState) := by
    decide
  refine ⟨?_, ?_, ?_⟩
  · unfold compute_probability_route
    rw [hc]
    have h1 : (constraintsResult tOps oneMagicState [0] [0]).2.1 = true := by decide
    rw [h1]
    simp
  · rw [hc]
    have ht : tOps.T_ANGLE = 1 := rfl
    have hth : tOps.AG_CHOP_THRESHOLD = 1 / 100 := rfl
    simp [allPhasesAreT, ht, hth]
    norm_num
  · rw [hc]

/-- C3: compute_probability is not invariant under consistent reordering of
its two input lists: on a classical two qubit tableau holding qubit 0 in state
0 and qubit 1 in state 1, measuring qubits [1, 0] for outcomes [1, 0] returns
0 while measuring qubits [0, 1] for outcomes [0, 1] (the same joint event)
returns 1, because the reordering loop pairs outcome entries with the wrong
qubits. -/
theorem c3_order_dependence :
    compute_probability basisOps basisState01 [1, 0] [1, 0] = 0 ∧
    compute_probability basisOps basisState01 [0, 1] [0, 1] = 1 ∧
    (0 : Q2) ≠ (1 : Q2) := by
  decide

/-- Left multiplication by one in Q[sqrt 2]. -/
theorem q2_one_mul (x : Q2) : Q2.mul 1 x = x := by
  cases x with
  | mk a b =>
    show Q2.mk (1 * a + 2 * 0 * b) (1 * b + 0 * a) = Q2.mk a b
    congr 1 <;> ring

/-- C2: the final multiplication at line 325 uses the size_t difference
v - w: at a concrete input with v = 0, w = 1 and one remaining magic qubit,
the result is acc times 2 to the wrapped exponent 2 ^ 64 - 1, which differs
from acc times 2 ^ (v - w) with the signed integer difference (and in
particular is not in [0, 1]). -/
theorem c2_unsigned_exponent_bug :
    compute_probability tOps oneMagicState [0] [0] = ⟨(2 : ℚ) ^ usub 0 1, 0⟩ ∧
    usub 0 1 = 2 ^ 64 - 1 ∧
    ((⟨(2 : ℚ) ^ usub 0 1, 0⟩ : Q2) ≠ ⟨(2 : ℚ) ^ ((0 : ℤ) - (1 : ℤ)), 0⟩) := by
  refine ⟨?_, ?_, ?_⟩
  · unfold compute_probability
    have hs : (constraintsResult tOps oneMagicState [0] [0]).2.1 = true := by decide
    have hq : (cleanedState tOps oneMagicState [0] [0]).num_qubits = 1 := by decide
    have ha : compute_algorithm_all_phases_T tOps.phase_exponent
        (cleanedState tOps oneMagicState [0] [0]) = 1 := by decide
    have hv : (constraintsResult tOps oneMagicState [0] [0]).2.2 = 0 := by decide
    rw [hs, hq, ha, hv]
    have hl : ([0] : List ℕ).length = 1 := rfl
    rw [hl]
    rw [if_neg (by simp), if_neg (by simp)]
    rw [q2_one_mul]
  · unfold usub
    rw [Nat.zero_mod, Nat.mod_eq_of_lt (show (1 : ℕ) < 2 ^ 64 by norm_num), Nat.zero_add]
    apply Nat.mod_eq_of_lt
    have h3 : 1 ≤ 2 ^ 64 := Nat.one_le_two_pow
    omega
  · generalize usub 0 1 = u
    intro h
    have ha : (2 : ℚ) ^ u = (2 : ℚ) ^ ((0 : ℤ) - (1 : ℤ)) := congrArg Q2.a h
    have hb : ((2 : ℚ) ^ ((0 : ℤ) - (1 : ℤ)) : ℚ) = 1 / 2 := by norm_num
    have hc : (1 : ℚ) ≤ (2 : ℚ) ^ u := one_le_pow₀ (by norm_num)
    rw [ha, hb] at hc
    norm_num at hc

/-- Unfolding equation for the classification loop at a cons cell. -/
theorem countXYZ_cons (row : Pauli) (j : ℕ) (js : List ℕ) (xc yc : ℕ) :
    countXYZ row (j :: js) xc yc =
      if row.X.getD j false && !(row.Z.getD j false) then countXYZ row js (xc + 1) yc
      else if !(row.X.getD j false) && row.Z.getD j false then (xc, yc, 1)
      else if row.X.getD j false && row.Z.getD j false then countXYZ row js xc (yc + 1)
      else countXYZ row js xc yc := rfl

/-- If some index of the list is a Z-only position of the row, the
classification loop reports ZCount 1 (it breaks at the first such index). -/
theorem countXYZ_any (row : Pauli) (js : List ℕ) (xc yc : ℕ)
    (h : js.any (zOnlyAt row) = true) : (countXYZ row js xc yc).2.2 = 1 := by
  induction js generalizing xc yc with
  | nil => simp at h
  | cons j js ih =>
    rw [List.any_cons] at h
    rw [countXYZ_cons]
    cases hx : row.X.getD j false <;> cases hz : row.Z.getD j false
    · have hzo : zOnlyAt row j = false := by unfold zOnlyAt; rw [hx, hz]; rfl
      rw [hzo, Bool.false_or] at h
      simp
      exact ih xc yc h
    · simp
    · have hzo : zOnlyAt row j = false := by unfold zOnlyAt; rw [hx]; rfl
      rw [hzo, Bool.false_or] at h
      simp
      exact ih (xc + 1) yc h
    · have hzo : zOnlyAt row j = false := by unfold zOnlyAt; rw [hx]; rfl
      rw [hzo, Bool.false_or] at h
      simp
      exact ih xc (yc + 1) h

/-- If no index of the list is a Z-only position of the row, the
classification loop runs to the end and returns the full X-only and Y counts
with ZCount 0. -/
theorem countXYZ_none (row : Pauli) (js : List ℕ) (xc yc : ℕ)
    (h : js.any (zOnlyAt row) = false) :
    countXYZ row js xc yc =
      (xc + js.countP (xOnlyAt row), yc + js.countP (yBothAt row), 0) := by
  induction js generalizing xc yc with
  | nil => simp [countXYZ]
  | cons j js ih =>
    rw [List.any_cons] at h
    rw [countXYZ_cons, List.countP_cons, List.countP_cons]
    cases hx : row.X.getD j false <;> cases hz : row.Z.getD j false
    · have hzo : zOnlyAt row j = false := by unfold zOnlyAt; rw [hx, hz]; rfl
      have hxo : xOnlyAt row j = false := by unfold xOnlyAt; rw [hx]; rfl
      have hyo : yBothAt row j = false := by unfold yBothAt; rw [hx]; rfl
      rw [hzo, Bool.false_or] at h
      rw [hxo, hyo]
      simp
      exact ih xc yc h
    · exfalso
      have hzo : zOnlyAt row j = true := by unfold zOnlyAt; rw [hx, hz]; rfl
      rw [hzo] at h
      simp at h
    · have hzo : zOnlyAt row j = false := by unfold zOnlyAt; rw [hx]; rfl
      have hxo : xOnlyAt row j = true := by unfold xOnlyAt; rw [hx, hz]; rfl
      have hyo : yBothAt row j = false := by unfold yBothAt; rw [hz, Bool.and_false]
      rw [hzo, Bool.false_or] at h
      rw [hxo, hyo]
      simp
      rw [ih (xc + 1) yc h]
      simp [Prod.mk.injEq]
      omega
    · have hzo : zOnlyAt row j = false := by unfold zOnlyAt; rw [hx]; rfl
      have hxo : xOnlyAt row j = false := by
        unfold xOnlyAt; rw [hz, Bool.not_true, Bool.and_false]
      have hyo : yBothAt row j = true := by unfold yBothAt; rw [hx, hz]; rfl
      rw [hzo, Bool.false_or] at h
      rw [hxo, hyo]
      simp
      rw [ih xc (yc + 1) h]
      simp [Prod.mk.injEq]
      omega

/-- C4: each iteration of the Gray-code loop contributes 0 to the accumulator
when the updated row has any Z-only position, and otherwise contributes a term
of magnitude 2 ^ (-(XCount + YCount)/2), added when (phase + YCount) mod 2 is
even and subtracted when odd, where XCount and YCount are the full counts of
X-only and Y positions and phase is the accumulated phase exponent. -/
theorem c4_row_contribution (pe : Pauli → Pauli → ℕ) (state : AGState) (acc : Q2)
    (row : Pauli) (phase mask : ℕ) :
    allT_step pe state acc row phase mask =
      ((if hasZOnly (grayRowUpdate state row mask) state.num_qubits then acc
        else if (grayPhaseUpdate pe state row phase mask +
                 yCountFull (grayRowUpdate state row mask) state.num_qubits) % 2 = 0 then
          acc + halfPow (xCountFull (grayRowUpdate state row mask) state.num_qubits +
                         yCountFull (grayRowUpdate state row mask) state.num_qubits)
        else
          acc - halfPow (xCountFull (grayRowUpdate state row mask) state.num_qubits +
                         yCountFull (grayRowUpdate state row mask) state.num_qubits)),
       grayRowUpdate state row mask, grayPhaseUpdate pe state row phase mask) := by
  unfold allT_step
  suffices h : allT_acc pe state acc row phase mask =
      (if hasZOnly (grayRowUpdate state row mask) state.num_qubits then acc
       else if (grayPhaseUpdate pe state row phase mask +
                yCountFull (grayRowUpdate state row mask) state.num_qubits) % 2 = 0 then
         acc + halfPow (xCountFull (grayRowUpdate state row mask) state.num_qubits +
                        yCountFull (grayRowUpdate state row mask) state.num_qubits)
       else
         acc - halfPow (xCountFull (grayRowUpdate state row mask) state.num_qubits +
                        yCountFull (grayRowUpdate state row mask) state.num_qubits)) by
    rw [h]
  unfold allT_acc
  cases hz : hasZOnly (grayRowUpdate state row mask) state.num_qubits
  · have h0 : (List.range state.num_qubits).any (zOnlyAt (grayRowUpdate state row mask)) =
        false := hz
    rw [countXYZ_none _ _ _ _ h0]
    simp [xCountFull, yCountFull]
  · have h1 : (List.range state.num_qubits).any (zOnlyAt (grayRowUpdate state row mask)) =
        true := hz
    rw [countXYZ_any _ _ _ _ h1]
    simp

/-- XOR of two naturals decomposed into low bit and high part. -/
theorem nat_xor_bit (a b : ℕ) (u v : Bool) :
    (2 * a + u.toNat) ^^^ (2 * b + v.toNat) = 2 * (a ^^^ b) + (u.xor v).toNat := by
  apply Nat.eq_of_testBit_eq
  intro i
  cases i with
  | zero =>
    rw [Nat.testBit_xor, Nat.testBit_zero, Nat.testBit_zero, Nat.testBit_zero]
    cases u <;> cases v <;> simp [Nat.mul_add_mod]
  | succ i =>
    have h1 : (2 * a + u.toNat) / 2 = a := by
      cases u <;> simp only [Bool.toNat_false, Bool.toNat_true] <;> omega
    have h2 : (2 * b + v.toNat) / 2 = b := by
      cases v <;> simp only [Bool.toNat_false, Bool.toNat_true] <;> omega
    have h3 : (2 * (a ^^^ b) + (u.xor v).toNat) / 2 = a ^^^ b := by
      cases u <;> cases v <;> simp <;> omega
    rw [Nat.testBit_xor, Nat.testBit_add_one, Nat.testBit_add_one, Nat.testBit_add_one,
        h1, h2, h3, Nat.testBit_xor]

/-- For m at least 1, m XOR (m - 1) is a block of trailing ones. -/
theorem nat_xor_pred : ∀ m : ℕ, 1 ≤ m → ∃ k, m ^^^ (m - 1) = 2 ^ (k + 1) - 1 := by
  intro m
  induction m using Nat.strong_induction_on with
  | _ m ih =>
    intro hm
    rcases Nat.even_or_odd m with he | ho
    · obtain ⟨a, ha⟩ := he
      have ha1 : 1 ≤ a := by omega
      obtain ⟨k, hk⟩ := ih a (by omega) ha1
      refine ⟨k + 1, ?_⟩
      have e1 : 2 * a + (false : Bool).toNat = m := by
        simp only [Bool.toNat_false]
        omega
      have e2 : 2 * (a - 1) + (true : Bool).toNat = m - 1 := by
        simp only [Bool.toNat_true]
        omega
      have e5 : a ^^^ (a - 1) = 2 ^ (k + 1) - 1 := hk
      rw [← e2, ← e1, nat_xor_bit, e5]
      have e6 : ((false : Bool).xor true).toNat = 1 := rfl
      rw [e6]
      have e3 : (2 : ℕ) ^ (k + 1 + 1) = 2 * 2 ^ (k + 1) := by ring
      have e4 : 1 ≤ (2 : ℕ) ^ (k + 1) := Nat.one_le_two_pow
      omega
    · obtain ⟨a, ha⟩ := ho
      refine ⟨0, ?_⟩
      have e1 : 2 * a + (true : Bool).toNat = m := by
        simp only [Bool.toNat_true]
        omega
      have e2 : 2 * a + (false : Bool).toNat = m - 1 := by
        simp only [Bool.toNat_false]
        omega
      rw [← e2, ← e1, nat_xor_bit, Nat.xor_self]
      decide

/-- Right shift by one distributes over XOR. -/
theorem shiftRight_one_xor (x y : ℕ) : (x ^^^ y) >>> 1 = (x >>> 1) ^^^ (y >>> 1) := by
  apply Nat.eq_of_testBit_eq
  intro i
  simp [Nat.testBit_shiftRight, Nat.testBit_xor]

/-- The Gray-code difference of consecutive masks rearranged through the
XOR of the masks themselves. -/
theorem gray_diff_form (m : ℕ) :
    BinaryToGray m ^^^ BinaryToGray (m - 1) =
      (m ^^^ (m - 1)) ^^^ ((m ^^^ (m - 1)) >>> 1) := by
  unfold BinaryToGray
  rw [shiftRight_one_xor]
  apply Nat.eq_of_testBit_eq
  intro i
  simp only [Nat.testBit_xor]
  cases m.testBit i <;> cases (m - 1).testBit i <;>
    cases (m >>> 1).testBit i <;> cases ((m - 1) >>> 1).testBit i <;> rfl

/-- Shifting a block of k + 1 trailing ones right by one. -/
theorem ones_shift (k : ℕ) : ((2 ^ (k + 1) - 1) : ℕ) >>> 1 = 2 ^ k - 1 := by
  rw [Nat.shiftRight_one]
  have h : (2 : ℕ) ^ (k + 1) = 2 * 2 ^ k := by ring
  omega

/-- XOR of two nested blocks of trailing ones is a single bit. -/
theorem ones_xor_ones (k : ℕ) : ((2 ^ (k + 1) - 1) : ℕ) ^^^ (2 ^ k - 1) = 2 ^ k := by
  apply Nat.eq_of_testBit_eq
  intro i
  simp only [Nat.testBit_xor, Nat.testBit_two_pow_sub_one, Nat.testBit_two_pow]
  by_cases h1 : i < k <;> by_cases h2 : i < k + 1 <;> simp [h1, h2] <;> omega

/-- The Gray codes of consecutive masks differ in exactly one bit. -/
theorem gray_diff_pow (m : ℕ) (hm : 1 ≤ m) :
    ∃ k, BinaryToGray m ^^^ BinaryToGray (m - 1) = 2 ^ k := by
  obtain ⟨k, hk⟩ := nat_xor_pred m hm
  exact ⟨k, by rw [gray_diff_form, hk, ones_shift, ones_xor_ones]⟩

/-- The full_mask loop produces 2 ^ num_stabilizers - 1. -/
theorem fullMask_eq (ns : ℕ) : fullMask ns = 2 ^ ns - 1 := by
  induction ns with
  | zero => rfl
  | succ n ih =>
    unfold fullMask at ih ⊢
    rw [List.range_succ, List.foldl_append, ih]
    show ((2 ^ n - 1) ||| (1 <<< n)) = 2 ^ (n + 1) - 1
    rw [Nat.one_shiftLeft]
    apply Nat.eq_of_testBit_eq
    intro i
    simp only [Nat.testBit_or, Nat.testBit_two_pow_sub_one, Nat.testBit_two_pow]
    by_cases h1 : i < n <;> by_cases h2 : i < n + 1 <;> simp [h1, h2] <;> omega

/-- The scan finds the unique set bit of a power of two. -/
theorem lsbScan_two_pow (k : ℕ) :
    ∀ fuel j, j ≤ k → k < j + fuel → lsbScan (2 ^ k) j fuel = k := by
  intro fuel
  induction fuel with
  | zero =>
    intro j h1 h2
    omega
  | succ f ih =>
    intro j h1 h2
    unfold lsbScan
    by_cases hj : j = k
    · subst hj
      simp [Nat.testBit_two_pow_self]
    · rw [Nat.testBit_two_pow_of_ne (by omega)]
      simp only [Bool.false_eq_true, if_false]
      exact ih (j + 1) (by omega) (by omega)

/-- bit_to_flip for a single-bit mask difference is the set bit. -/
theorem lowestSetBit_two_pow (ns k : ℕ) (h : k < ns) : lowestSetBit ns (2 ^ k) = k :=
  lsbScan_two_pow k ns 0 (by omega) (by omega)

/-- BinaryToGray does not leave the bit range of its argument. -/
theorem gray_lt (x n : ℕ) (hx : x < 2 ^ n) : BinaryToGray x < 2 ^ n := by
  unfold BinaryToGray
  apply Nat.xor_lt_two_pow hx
  have h : x >>> 1 ≤ x := by
    rw [Nat.shiftRight_one]
    exact Nat.div_le_self x 2
  omega

/-- Pointwise XOR of bit vectors commutes. -/
theorem zipWith_xor_comm (l1 l2 : List Bool) :
    List.zipWith Bool.xor l1 l2 = List.zipWith Bool.xor l2 l1 := by
  induction l1 generalizing l2 with
  | nil => cases l2 <;> rfl
  | cons a l ih =>
    cases l2 with
    | nil => rfl
    | cons b l2 => simp [ih, Bool.xor_comm]

/-- Pointwise XOR of bit vectors associates. -/
theorem zipWith_xor_assoc (l1 l2 l3 : List Bool) :
    List.zipWith Bool.xor (List.zipWith Bool.xor l1 l2) l3 =
      List.zipWith Bool.xor l1 (List.zipWith Bool.xor l2 l3) := by
  induction l1 generalizing l2 l3 with
  | nil => rfl
  | cons a l ih =>
    cases l2 with
    | nil => rfl
    | cons b l2 =>
      cases l3 with
      | nil => rfl
      | cons c l3 => simp [ih, Bool.xor_assoc]

/-- Pauli row addition commutes. -/
theorem pauli_add_comm (p q : Pauli) : p + q = q + p := by
  show Pauli.add p q = Pauli.add q p
  unfold Pauli.add
  rw [zipWith_xor_comm p.X q.X, zipWith_xor_comm p.Z q.Z]

/-- Pauli row addition associates. -/
theorem pauli_add_assoc (p q r : Pauli) : p + q + r = p + (q + r) := by
  show Pauli.add (Pauli.add p q) r = Pauli.add p (Pauli.add q r)
  unfold Pauli.add
  simp [zipWith_xor_assoc]

/-- Pauli row addition right commutes. -/
theorem pauli_add_right_comm (p q r : Pauli) : p + q + r = p + r + q := by
  rw [pauli_add_assoc, pauli_add_assoc, pauli_add_comm q r]

/-- XOR of a bit vector with itself. -/
theorem zipWith_xor_self (l : List Bool) :
    List.zipWith Bool.xor l l = List.replicate l.length false := by
  induction l with
  | nil => rfl
  | cons a l ih => simp [ih, List.replicate_succ]

/-- XOR with the all-false vector of matching length. -/
theorem zipWith_xor_replicate_false (l : List Bool) (n : ℕ) (h : l.length = n) :
    List.zipWith Bool.xor l (List.replicate n false) = l := by
  induction l generalizing n with
  | nil => rfl
  | cons a l ih =>
    cases n with
    | zero => simp at h
    | succ n => simp [List.replicate_succ, ih n (by simpa using h)]

/-- Adding the same row twice cancels, given matching lengths. -/
theorem pauli_add_self_cancel (r p : Pauli) (n : ℕ)
    (hrx : r.X.length = n) (hrz : r.Z.length = n)
    (hpx : p.X.length = n) (hpz : p.Z.length = n) :
    r + p + p = r := by
  rw [pauli_add_assoc]
  show Pauli.add r (Pauli.add p p) = r
  unfold Pauli.add
  cases r with
  | mk rX rZ =>
    simp only
    rw [zipWith_xor_self p.X, zipWith_xor_self p.Z, hpx, hpz]
    simp only at hrx hrz
    rw [zipWith_xor_replicate_false rX n hrx, zipWith_xor_replicate_false rZ n hrz]

/-- Length of the X component of a Pauli sum. -/
theorem pauli_add_length_X (p q : Pauli) :
    (p + q).X.length = min p.X.length q.X.length := by
  show (Pauli.add p q).X.length = _
  simp [Pauli.add]

/-- Length of the Z component of a Pauli sum. -/
theorem pauli_add_length_Z (p q : Pauli) :
    (p + q).Z.length = min p.Z.length q.Z.length := by
  show (Pauli.add p q).Z.length = _
  simp [Pauli.add]

/-- Rows read from a well-formed table, with the identity default, have the
tableau qubit count as length. -/
theorem table_getD_length (state : AGState) (h : WFTable state) (j : ℕ) :
    (state.table.getD j (Pauli.identity state.num_qubits)).X.length = state.num_qubits ∧
    (state.table.getD j (Pauli.identity state.num_qubits)).Z.length = state.num_qubits := by
  by_cases hj : j < state.table.length
  · rw [List.getD_eq_getElem _ _ hj]
    exact h _ (List.getElem_mem hj)
  · rw [List.getD_eq_default _ _ (by omega)]
    constructor <;> simp [Pauli.identity]

/-- The selected-rows fold over the empty index list. -/
theorem selAux_nil (state : AGState) (m : ℕ) (r : Pauli) : selAux state m [] r = r := rfl

/-- Unfolding the selected-rows fold at a cons cell. -/
theorem selAux_cons (state : AGState) (m j : ℕ) (js : List ℕ) (r : Pauli) :
    selAux state m (j :: js) r =
      selAux state m js
        (if m.testBit j then r + state.table.getD j (Pauli.identity state.num_qubits)
         else r) := rfl

/-- The selected-rows fold splits over list append. -/
theorem selAux_append (state : AGState) (m : ℕ) (js1 js2 : List ℕ) (r : Pauli) :
    selAux state m (js1 ++ js2) r = selAux state m js2 (selAux state m js1 r) := by
  unfold selAux
  rw [List.foldl_append]

/-- Masks agreeing on all listed bits select the same rows. -/
theorem selAux_congr (state : AGState) (m m2 : ℕ) (js : List ℕ) (r : Pauli)
    (h : ∀ j ∈ js, m2.testBit j = m.testBit j) :
    selAux state m2 js r = selAux state m js r := by
  induction js generalizing r with
  | nil => rfl
  | cons j js ih =>
    rw [selAux_cons, selAux_cons, h j (by simp)]
    exact ih _ (fun x hx => h x (by simp [hx]))

/-- An added row floats out of the selected-rows fold. -/
theorem selAux_float (state : AGState) (m : ℕ) (js : List ℕ) (p r : Pauli) :
    selAux state m js (r + p) = selAux state m js r + p := by
  induction js generalizing r with
  | nil => rfl
  | cons j js ih =>
    rw [selAux_cons, selAux_cons]
    by_cases hb : m.testBit j
    · rw [if_pos hb, if_pos hb, pauli_add_right_comm]
      exact ih _
    · rw [if_neg hb, if_neg hb]
      exact ih _

/-- The selected-rows fold preserves row length over a well-formed table. -/
theorem selAux_length (state : AGState) (hwf : WFTable state) (m : ℕ) (js : List ℕ)
    (r : Pauli) (hx : r.X.length = state.num_qubits) (hz : r.Z.length = state.num_qubits) :
    (selAux state m js r).X.length = state.num_qubits ∧
    (selAux state m js r).Z.length = state.num_qubits := by
  induction js generalizing r with
  | nil => exact ⟨hx, hz⟩
  | cons j js ih =>
    rw [selAux_cons]
    by_cases hb : m.testBit j
    · rw [if_pos hb]
      obtain ⟨h1, h2⟩ := table_getD_length state hwf j
      apply ih
      · rw [pauli_add_length_X, hx, h1, Nat.min_self]
      · rw [pauli_add_length_Z, hz, h2, Nat.min_self]
    · rw [if_neg hb]
      exact ih r hx hz

/-- The zero mask selects no rows. -/
theorem selAux_zero (state : AGState) (js : List ℕ) (r : Pauli) :
    selAux state 0 js r = r := by
  induction js generalizing r with
  | nil => rfl
  | cons j js ih =>
    rw [selAux_cons, Nat.zero_testBit, if_neg (by simp)]
    exact ih r

/-- selectRows of the zero mask is the identity row. -/
theorem selectRows_zero (state : AGState) :
    selectRows state 0 = Pauli.identity state.num_qubits :=
  selAux_zero state (List.range state.num_stabilizers) (Pauli.identity state.num_qubits)

/-- Toggling an unset bit k below num_stabilizers adds generator row k to the
selected product. -/
theorem selectRows_toggle_off (state : AGState) (_hwf : WFTable state) (m k : ℕ)
    (hk : k < state.num_stabilizers) (hb : m.testBit k = false) :
    selectRows state (m ^^^ 2 ^ k) =
      selectRows state m + state.table.getD k (Pauli.identity state.num_qubits) := by
  unfold selectRows
  have hbits : ∀ j, j ≠ k → (m ^^^ 2 ^ k).testBit j = m.testBit j := by
    intro j hj
    rw [Nat.testBit_xor, Nat.testBit_two_pow_of_ne (by omega), Bool.xor_false]
  have hsplit : List.range state.num_stabilizers =
      (List.range' 0 k ++ [k]) ++
        List.range' (k + 1) (state.num_stabilizers - (k + 1)) := by
    rw [List.range_eq_range']
    rw [show (List.range' 0 k ++ [k]) = List.range' 0 (k + 1) from by
      rw [List.range'_concat]
      simp]
    have h2 := List.range'_append 0 (k + 1) (state.num_stabilizers - (k + 1)) 1
    have e1 : 0 + 1 * (k + 1) = k + 1 := by omega
    have e2 : state.num_stabilizers - (k + 1) + (k + 1) = state.num_stabilizers := by omega
    rw [e1, e2] at h2
    exact h2.symm
  rw [hsplit, selAux_append, selAux_append, selAux_append, selAux_append]
  have hA : selAux state (m ^^^ 2 ^ k) (List.range' 0 k) (Pauli.identity state.num_qubits) =
      selAux state m (List.range' 0 k) (Pauli.identity state.num_qubits) := by
    apply selAux_congr
    intro j hj
    have hjk : j < k := by
      have := List.mem_range'_1.mp hj
      omega
    exact hbits j (by omega)
  rw [hA]
  have hbk : (m ^^^ 2 ^ k).testBit k = true := by
    rw [Nat.testBit_xor, hb, Nat.testBit_two_pow_self]
    rfl
  rw [selAux_cons, selAux_cons, hbk, hb]
  rw [if_pos rfl, if_neg (by simp)]
  have hC : ∀ r : Pauli,
      selAux state (m ^^^ 2 ^ k)
        (List.range' (k + 1) (state.num_stabilizers - (k + 1))) r =
      selAux state m (List.range' (k + 1) (state.num_stabilizers - (k + 1))) r := by
    intro r
    apply selAux_congr
    intro j hj
    have hjk : k + 1 ≤ j := by
      have := List.mem_range'_1.mp hj
      omega
    exact hbits j (by omega)
  rw [hC]
  simp only [selAux_nil]
  rw [selAux_float]

/-- Toggling any bit k below num_stabilizers adds generator row k to the
selected product (using self-cancellation when the bit was set). -/
theorem selectRows_toggle (state : AGState) (hwf : WFTable state) (m k : ℕ)
    (hk : k < state.num_stabilizers) :
    selectRows state (m ^^^ 2 ^ k) =
      selectRows state m + state.table.getD k (Pauli.identity state.num_qubits) := by
  by_cases hb : m.testBit k
  · have hb2 : (m ^^^ 2 ^ k).testBit k = false := by
      rw [Nat.testBit_xor, hb, Nat.testBit_two_pow_self]
      rfl
    have h2 := selectRows_toggle_off state hwf (m ^^^ 2 ^ k) k hk hb2
    rw [Nat.xor_assoc, Nat.xor_self, Nat.xor_zero] at h2
    rw [h2]
    have hT := table_getD_length state hwf k
    have hS := selAux_length state hwf (m ^^^ 2 ^ k) (List.range state.num_stabilizers)
      (Pauli.identity state.num_qubits) (by simp [Pauli.identity]) (by simp [Pauli.identity])
    exact (pauli_add_self_cancel _ _ state.num_qubits hS.1 hS.2 hT.1 hT.2).symm
  · have hb2 : m.testBit k = false := by
      revert hb
      cases m.testBit k <;> simp
    exact selectRows_toggle_off state hwf m k hk hb2

/-- Unfolding one iteration of the Gray-code loop. -/
theorem allT_loop_succ (pe : Pauli → Pauli → ℕ) (state : AGState) (M : ℕ) :
    allT_loop pe state (M + 1) =
      allT_step pe state (allT_loop pe state M).1 (allT_loop pe state M).2.1
        (allT_loop pe state M).2.2 (M + 1) := by
  unfold allT_loop
  rw [List.range'_concat]
  rw [show 1 + 1 * M = M + 1 from by omega]
  rw [List.foldl_append]
  rfl

/-- C5: the Gray codes of consecutive masks differ in exactly one bit (the
difference is a power of two), so each loop iteration adds exactly one
generator row; and for every well-formed tableau and every prefix of the loop
within range, the running row after processing mask M equals the product of
the generator rows selected by BinaryToGray M. -/
theorem c5_graycode_invariant :
    (∀ m : ℕ, 1 ≤ m → ∃ k, BinaryToGray m ^^^ BinaryToGray (m - 1) = 2 ^ k) ∧
    (∀ (pe : Pauli → Pauli → ℕ) (state : AGState) (M : ℕ), WFTable state →
      M ≤ fullMask state.num_stabilizers →
      (allT_loop pe state M).2.1 = selectRows state (BinaryToGray M)) := by
  constructor
  · exact gray_diff_pow
  · intro pe state M hwf
    induction M with
    | zero =>
      intro _
      show Pauli.identity state.num_qubits = selectRows state (BinaryToGray 0)
      rw [show BinaryToGray 0 = 0 from rfl, selectRows_zero state]
    | succ M ih =>
      intro hM
      have hM2 : M ≤ fullMask state.num_stabilizers := by omega
      have hrow := ih hM2
      rw [allT_loop_succ]
      show grayRowUpdate state (allT_loop pe state M).2.1 (M + 1) = _
      unfold grayRowUpdate grayTargetRow
      simp only [Nat.add_sub_cancel]
      obtain ⟨k, hk⟩ := gray_diff_pow (M + 1) (by omega)
      simp only [Nat.add_sub_cancel] at hk
      have hfm := fullMask_eq state.num_stabilizers
      have hone : 1 ≤ (2 : ℕ) ^ state.num_stabilizers := Nat.one_le_two_pow
      have hlt1 : M + 1 < 2 ^ state.num_stabilizers := by omega
      have hg1 : BinaryToGray (M + 1) < 2 ^ state.num_stabilizers := gray_lt _ _ hlt1
      have hg2 : BinaryToGray M < 2 ^ state.num_stabilizers := gray_lt _ _ (by omega)
      have hdlt : (2 : ℕ) ^ k < 2 ^ state.num_stabilizers := by
        rw [← hk]
        exact Nat.xor_lt_two_pow hg1 hg2
      have hkns : k < state.num_stabilizers :=
        (Nat.pow_lt_pow_iff_right (by norm_num)).mp hdlt
      rw [hk, lowestSetBit_two_pow _ _ hkns, hrow]
      have hgg : BinaryToGray (M + 1) = BinaryToGray M ^^^ 2 ^ k := by
        rw [← hk, Nat.xor_comm (BinaryToGray (M + 1)) (BinaryToGray M), ← Nat.xor_assoc,
            Nat.xor_self, Nat.zero_xor]
      rw [hgg, selectRows_toggle state hwf _ k hkns]

/-- Witness for C5: the Gray difference of masks 6 and 5 is a power of two,
and after processing mask 2 on a concrete two-stabilizer tableau the running
row equals the product selected by BinaryToGray 2. -/
theorem c5_graycode_invariant_witness :
    (∃ k, BinaryToGray 6 ^^^ BinaryToGray 5 = 2 ^ k) ∧
    (allT_loop peZero wfState 2).2.1 = selectRows wfState (BinaryToGray 2) :=
  ⟨c5_graycode_invariant.1 6 (by omega),
   c5_graycode_invariant.2 peZero wfState 2 (by unfold WFTable; decide) (by decide)⟩
